import Mathlib

/-!
Shallow embedding of the `TimeSync` engine (src/unnamed/part_001) and proofs
about its subscription, scheduling, dispatch and teardown behaviour.

Modelling conventions:

* A requested interval (`maxUpdateIntervalMs`) is an `Iv := Option Nat`;
  `none` stands for the JavaScript number `Infinity` ("unbounded"), `some n`
  for a finite number of milliseconds.  The JavaScript comparison `a < b`
  on such values is `ivLt`.
* The `Map<number, Set<SubscriptionCallback>>` field `#subscriptions` is an
  insertion-ordered association list `subs : List (Iv × Nat)` whose values
  are bucket identifiers, together with a heap `heap : Nat → List Nat`
  mapping each bucket identifier to the insertion-ordered, duplicate-free
  list of callback identifiers it holds.  `new Set()` allocates the fresh
  identifier `nextB`.  Keeping buckets in a heap (rather than inline)
  models the JavaScript aliasing: the unsubscribe closure captures the Set
  object itself, which survives deletion of its Map entry.
* Callbacks are opaque identifiers (`Nat`); a time snapshot is an opaque
  `Nat` (`dayjs()` results are only stored and handed out, never inspected).
* Timer hosts: the engine is constructed either with the default
  `window.setTimeout`/`window.clearTimeout` pair (`injected = false`) or
  with injected test primitives (`injected = true`).  `liveWin` holds the
  timers pending in the window scheduler, `liveInj` the timers pending in
  the injected scheduler; each entry records the opaque handle and the
  delay the timer was armed with.  The engine's own `#setTimeout` /
  `#clearTimeout` act on the scheduler selected by `injected`;
  `TimeSync.cleanup` uses `window.clearTimeout` literally, as the source
  does.
-/

/-- A requested update interval: `some n` is a finite number of
milliseconds, `none` is the JavaScript `Infinity`. -/
abbrev Iv := Option Nat

/-- JavaScript `<` on interval values: every finite number is below
`Infinity`, and `Infinity < Infinity` is false. -/
def ivLt : Iv → Iv → Bool
  | some a, some b => decide (a < b)
  | some _, none => true
  | none, _ => false

/-- `Set.add` semantics: append the element unless it is already present. -/
def addUnique (l : List Nat) (c : Nat) : List Nat :=
  if c ∈ l then l else l ++ [c]

/-- `Map.get` on the insertion-ordered association list of buckets. -/
def lookupI : List (Iv × Nat) → Iv → Option Nat
  | [], _ => none
  | p :: rest, i => if p.1 = i then some p.2 else lookupI rest i

/-- `Map.delete` on the insertion-ordered association list of buckets. -/
def removeKey (l : List (Iv × Nat)) (i : Iv) : List (Iv × Nat) :=
  l.filter (fun p => decide (p.1 ≠ i))

/-- The keys of the bucket map are pairwise distinct (true of every real
JavaScript `Map`). -/
@[reducible] def KeysNodup (l : List (Iv × Nat)) : Prop :=
  (l.map Prod.fst).Nodup

/-- The loop of `scheduleNextTick` that computes
`earliestPossibleUpdateMs`: fold JavaScript `<` over the map keys starting
from `Infinity`. -/
def minKeyIv (l : List (Iv × Nat)) : Iv :=
  l.foldl (fun e p => if ivLt p.1 e then p.1 else e) none

/-- The unsubscribe closure returned by `TimeSync.subscribe`: it captures
the Set object (`b`), the requested interval (`i`) and the callback (`c`). -/
structure Token where
  b : Nat
  i : Iv
  c : Nat
deriving DecidableEq, Repr

/-- The whole observable world: the `TimeSync` instance's private fields
plus the state of the two timer hosts. -/
structure World where
  /-- fresh bucket identifier counter (models `new Set()` allocation) -/
  nextB : Nat
  /-- bucket identifier ↦ contents of that Set, in insertion order -/
  heap : Nat → List Nat
  /-- the `#subscriptions` map: interval ↦ bucket identifier, in insertion order -/
  subs : List (Iv × Nat)
  /-- the `#latestTime` field -/
  latest : Nat
  /-- the `#nextTickId` field -/
  nextTickId : Option Nat
  /-- the `#nextTickMs` field -/
  nextTickMs : Option Iv
  /-- whether the constructor received injected timer primitives -/
  injected : Bool
  /-- fresh timer handle counter -/
  nextT : Nat
  /-- timers pending in the injected scheduler: (handle, armed delay) -/
  liveInj : List (Nat × Iv)
  /-- timers pending in the window scheduler: (handle, armed delay) -/
  liveWin : List (Nat × Iv)

/-- The `TimeSync` constructor: stores the initial snapshot and the chosen
timer primitives; no buckets, no pending timer. -/
def construct (v : Nat) (inj : Bool) : World :=
  { nextB := 0, heap := fun _ => [], subs := [], latest := v,
    nextTickId := none, nextTickMs := none, injected := inj,
    nextT := 0, liveInj := [], liveWin := [] }

/-- Overwrite one bucket cell of the heap. -/
def setHeap (w : World) (b : Nat) (l : List Nat) : World :=
  { w with heap := fun x => if x = b then l else w.heap x }

/-- The timers pending in the scheduler the engine's own primitives act
on. -/
def engineLive (w : World) : List (Nat × Iv) :=
  if w.injected then w.liveInj else w.liveWin

/-- `this.#clearTimeout(id)`: remove the handle from the engine's
scheduler; `clearTimeout(undefined)` is a no-op. -/
def engineClear (w : World) (id : Option Nat) : World :=
  match id with
  | none => w
  | some t =>
      if w.injected then
        { w with liveInj := w.liveInj.filter (fun p => decide (p.1 ≠ t)) }
      else
        { w with liveWin := w.liveWin.filter (fun p => decide (p.1 ≠ t)) }

/-- `this.#setTimeout(this.tick, d)` followed by recording the handle in
`#nextTickId`: arm a fresh timer with delay `d` in the engine's
scheduler. -/
def engineArm (w : World) (d : Iv) : World :=
  let t := w.nextT
  let w1 :=
    if w.injected then { w with liveInj := w.liveInj ++ [(t, d)] }
    else { w with liveWin := w.liveWin ++ [(t, d)] }
  { w1 with nextT := t + 1, nextTickId := some t }

/-- `window.clearTimeout(t)`: remove the handle from the window scheduler
only. -/
def windowClear (w : World) (t : Nat) : World :=
  { w with liveWin := w.liveWin.filter (fun p => decide (p.1 ≠ t)) }

/-- `TimeSync.scheduleNextTick`: clear the recorded handle via the
engine's `#clearTimeout`, compute the minimum requested interval, go idle
if it is `Infinity`, otherwise set `#nextTickMs` to the placeholder
`Infinity` and arm a timer with that delay. -/
def scheduleNextTick (w : World) : World :=
  let w1 := engineClear w w.nextTickId
  if minKeyIv w1.subs = none then w1
  else engineArm { w1 with nextTickMs := some none } none

/-- `TimeSync.getValue`: return `#latestTime`. -/
def getValue (w : World) : Nat :=
  w.latest

/-- `TimeSync.subscribe`: fetch or create the bucket for the interval
(recomputing the schedule when the bucket is new, before the callback is
added), add the callback to the Set, and return the unsubscribe token. -/
def subscribe (i : Iv) (c : Nat) (w : World) : World × Token :=
  match lookupI w.subs i with
  | some b => (setHeap w b (addUnique (w.heap b) c), ⟨b, i, c⟩)
  | none =>
      let b := w.nextB
      let w1 := setHeap { w with nextB := b + 1 } b []
      let w2 := { w1 with subs := w1.subs ++ [(i, b)] }
      let w3 := scheduleNextTick w2
      let w4 := setHeap w3 b (addUnique (w3.heap b) c)
      (w4, ⟨b, i, c⟩)

/-- The unsubscribe closure returned by `TimeSync.subscribe`: delete the
callback from the captured Set; if the Set is now empty, delete the map
entry for the captured interval (whatever bucket it currently holds, as
the source does) and recompute the schedule. -/
def unsubscribeTok (t : Token) (w : World) : World :=
  let l := (w.heap t.b).erase t.c
  let w1 := setHeap w t.b l
  if l = [] then scheduleNextTick { w1 with subs := removeKey w1.subs t.i }
  else w1

/-- `TimeSync.cleanup`: if a handle is recorded, call
`window.clearTimeout` on it (the source uses the global primitive, not the
injected `#clearTimeout`) and clear the handle. -/
def cleanup (w : World) : World :=
  match w.nextTickId with
  | none => w
  | some t => { windowClear w t with nextTickId := none }

/-! ## Dispatch

`TimeSync.tick` captures one snapshot, assigns it to `#latestTime`, then
iterates the live `Map` of buckets and, inside each bucket, the live
`Set` of callbacks, invoking each callback with the captured snapshot.

A callback's behaviour is a `Beh`: it may throw (the source has no
try/catch, so a throw aborts the whole dispatch and propagates) and it may
invoke unsubscribe closures (the only engine re-entry the claims exercise).

JavaScript `Map`/`Set` iterators are live: an entry deleted before being
reached is skipped, and — since no entry is ever inserted during a tick in
this model — the iteration visits exactly the entries of the collection at
iteration start that still exist when their turn comes.  `dispatchKeys` /
`dispatchBucket` walk the entry list captured when iteration starts and
re-check existence at each step, which is exactly that semantics. -/

/-- Behaviour of the callbacks during a tick: which callbacks throw, and
which unsubscribe closures each callback invokes before returning. -/
structure Beh where
  throws : Nat → Bool
  unsubs : Nat → List Token

/-- Callbacks that just accept the value: no throws, no re-entry. -/
def passiveBeh : Beh :=
  { throws := fun _ => false, unsubs := fun _ => [] }

/-- One delivered notification: (bucket interval, callback, value). -/
abbrev Entry := Iv × Nat × Nat

/-- Invoke a list of unsubscribe closures in order. -/
def applyUnsubs (ts : List Token) (w : World) : World :=
  ts.foldl (fun w t => unsubscribeTok t w) w

/-- Iterate one bucket's Set (walk list captured at bucket entry, live
existence check per element).  Returns the world, the notifications made,
and whether a callback threw (aborting everything). -/
def dispatchBucket (beh : Beh) (now : Nat) (i : Iv) (b : Nat) :
    List Nat → World → World × List Entry × Bool
  | [], w => (w, [], false)
  | c :: rest, w =>
      if c ∈ w.heap b then
        if beh.throws c then (w, [(i, c, now)], true)
        else
          let w1 := applyUnsubs (beh.unsubs c) w
          let r := dispatchBucket beh now i b rest w1
          (r.1, (i, c, now) :: r.2.1, r.2.2)
      else dispatchBucket beh now i b rest w

/-- Iterate the Map of buckets (walk list captured at tick start, live
existence check per entry). -/
def dispatchKeys (beh : Beh) (now : Nat) :
    List (Iv × Nat) → World → World × List Entry × Bool
  | [], w => (w, [], false)
  | p :: rest, w =>
      if lookupI w.subs p.1 = some p.2 then
        let r1 := dispatchBucket beh now p.1 p.2 (w.heap p.2) w
        if r1.2.2 then r1
        else
          let r2 := dispatchKeys beh now rest r1.1
          (r2.1, r1.2.1 ++ r2.2.1, r2.2.2)
      else dispatchKeys beh now rest w

/-- `TimeSync.tick`: capture `newTime`, assign it to `#latestTime`, then
dispatch to every bucket. -/
def tick (beh : Beh) (now : Nat) (w : World) : World × List Entry × Bool :=
  dispatchKeys beh now w.subs { w with latest := now }

/-- A callback is registered at an interval when the bucket map has an
entry for that interval whose Set contains the callback. -/
def registered (w : World) (i : Iv) (c : Nat) : Prop :=
  ∃ b, lookupI w.subs i = some b ∧ c ∈ w.heap b

/-- The timers pending in the scheduler the engine's own primitives do
not act on. -/
def otherLive (w : World) : List (Nat × Iv) :=
  if w.injected then w.liveWin else w.liveInj

/-- The observable state of claim C3: every bucket with its contents, and
the armed delays pending in each scheduler (timer handles are not
observable). -/
def obs (w : World) : List (Iv × List Nat) × List Iv × List Iv :=
  (w.subs.map (fun p => (p.1, w.heap p.2)),
   (engineLive w).map Prod.snd, (otherLive w).map Prod.snd)

/-- Coherent pending-timer bookkeeping: when some bucket has a finite
interval, the recorded handle is the one armed timer; otherwise no engine
timer is pending.  This holds after every subscribe/unsubscribe on an
engine whose timers have not been tampered with by `cleanup` or a fired
tick. -/
def schedInv (w : World) : Prop :=
  match minKeyIv w.subs with
  | none => engineLive w = []
  | some _ => ∃ t, w.nextTickId = some t ∧ engineLive w = [(t, none)]

/-- A configuration: the engine state together with the ghost list of
live registrations (interval, callback) in subscription order. -/
abbrev Conf := World × List (Iv × Nat)

/-- Safe use of the public interface, claim C2 (amended): a callback is
only subscribed at an interval where it is not currently live, and an
unsubscribe closure is only invoked while its subscription is still
current (its captured Set is still the interval's bucket and still
contains the callback) — in particular each closure is invoked at most
once and never after its bucket has been replaced. -/
inductive SafeStep : Conf → Conf → Prop where
  | sub (w : World) (g : List (Iv × Nat)) (i : Iv) (c : Nat)
      (hfresh : (i, c) ∉ g) :
      SafeStep (w, g) ((subscribe i c w).1, g ++ [(i, c)])
  | uns (w : World) (g : List (Iv × Nat)) (b : Nat) (i : Iv) (c : Nat)
      (hb : lookupI w.subs i = some b) (hc : c ∈ w.heap b) :
      SafeStep (w, g) (unsubscribeTok ⟨b, i, c⟩ w, g.erase (i, c))

/-- Configurations reachable from a freshly constructed engine by safe
subscribe/unsubscribe steps. -/
def Reach (v : Nat) (inj : Bool) (cf : Conf) : Prop :=
  Relation.ReflTransGen SafeStep (construct v inj, []) cf

/-- The inductive invariant tying the engine state to the ghost list of
live registrations: keys and bucket identifiers are duplicate-free,
mapped bucket identifiers are below the allocation counter, every mapped
bucket is a duplicate-free non-empty Set holding exactly the live
callbacks of its interval, and every live registration has a bucket. -/
def EngineInv (w : World) (g : List (Iv × Nat)) : Prop :=
  KeysNodup w.subs
  ∧ (∀ p ∈ w.subs, p.2 < w.nextB)
  ∧ (w.subs.map Prod.snd).Nodup
  ∧ (∀ p ∈ w.subs, (w.heap p.2).Nodup)
  ∧ (∀ p ∈ w.subs, w.heap p.2 ≠ [])
  ∧ (∀ p ∈ w.subs, ∀ c, c ∈ w.heap p.2 ↔ (p.1, c) ∈ g)
  ∧ (∀ i c, (i, c) ∈ g → ∃ b, lookupI w.subs i = some b)
  ∧ g.Nodup

/-- `w'` has a possibly-shrunk map and possibly-shrunk buckets compared
with `w`. -/
def Shrinks (w w' : World) : Prop :=
  List.Sublist w'.subs w.subs ∧ ∀ b, List.Sublist (w'.heap b) (w.heap b)

/-! ### Concrete engines used by the claim witnesses and counterexamples -/

/-- Subscriber 1 at 1000 ms on a fresh engine with default timers. -/
def exA : World × Token := subscribe (some 1000) 1 (construct 0 false)

/-- …whose unsubscribe closure (capturing Set 0) is then invoked once
(bucket destroyed); the closure is `exA.2 = ⟨0, some 1000, 1⟩`. -/
def exB : World := unsubscribeTok ⟨0, some 1000, 1⟩ exA.1

/-- …then subscriber 2 arrives at the same interval (fresh bucket). -/
def exC : World × Token := subscribe (some 1000) 2 exB

/-- …and the stale closure of subscriber 1 is invoked a second time. -/
def exD : World := unsubscribeTok exA.2 exC.1

/-- An engine with subscribers 1 (1000 ms) and 2 (unbounded). -/
def exC1 : World :=
  (subscribe none 2 (subscribe (some 1000) 1 (construct 0 false)).1).1

/-- An engine constructed with injected timer primitives, one subscriber
at 1000 ms (arming one injected timer), then `cleanup()`. -/
def exC5 : World := cleanup (subscribe (some 1000) 5 (construct 0 true)).1

/-- …then a second subscriber at 500 ms (arming another timer). -/
def exC7 : World := (subscribe (some 500) 6 exC5).1

/-- An engine with one bucket holding callbacks 1 and 2 at 1000 ms. -/
def exC6 : World :=
  (subscribe (some 1000) 2 (subscribe (some 1000) 1 (construct 0 false)).1).1

/-- Callback 1 throws during dispatch; nobody unsubscribes. -/
def behC6 : Beh :=
  { throws := fun c => c == 1, unsubs := fun _ => [] }

/-- The engine of `exC6` after callback 1's unsubscribe closure
(capturing Set 0) has been invoked once: callback 2 is still in the
bucket. -/
def exC3 : World := unsubscribeTok ⟨0, some 1000, 1⟩ exC6

/-- Subscribers X = 1 (1000 ms), Y = 2 (5000 ms), Z = 3 (1000 ms). -/
def exC8 : World :=
  (subscribe (some 1000) 3
    ((subscribe (some 5000) 2 (subscribe (some 1000) 1 (construct 0 false)).1).1)).1

/-- During dispatch, subscriber Z = 3 invokes its own unsubscribe closure
(the Set of the 1000 ms bucket is bucket 0); nobody throws. -/
def behC8 : Beh :=
  { throws := fun _ => false,
    unsubs := fun c => if c = 3 then [⟨0, some 1000, 3⟩] else [] }

/-- An engine where callback 7 is subscribed at 1000 ms. -/
def exC10 : World × Token := subscribe (some 1000) 7 (construct 3 false)

/-! ## Basic lemmas about the list-level operations -/

theorem lookupI_eq_none (l : List (Iv × Nat)) (i : Iv) :
    lookupI l i = none ↔ ∀ p ∈ l, p.1 ≠ i := by
  induction l with
  | nil => simp [lookupI]
  | cons p rest ih =>
      by_cases h : p.1 = i <;> simp [lookupI, h, ih]

theorem mem_of_lookupI {l : List (Iv × Nat)} {i : Iv} {b : Nat}
    (h : lookupI l i = some b) : (i, b) ∈ l := by
  induction l with
  | nil => simp [lookupI] at h
  | cons p rest ih =>
      by_cases hp : p.1 = i
      · simp [lookupI, hp] at h
        subst hp h
        exact List.mem_cons_self _ _
      · simp [lookupI, hp] at h
        exact List.mem_cons_of_mem _ (ih h)

theorem lookupI_of_mem {l : List (Iv × Nat)} {i : Iv} {b : Nat}
    (hn : KeysNodup l) (h : (i, b) ∈ l) : lookupI l i = some b := by
  induction l with
  | nil => simp at h
  | cons p rest ih =>
      rcases List.mem_cons.mp h with h1 | h1
      · subst h1; simp [lookupI]
      · have hp : p.1 ≠ i := by
          intro he
          have : i ∈ rest.map Prod.fst := by
            exact List.mem_map.mpr ⟨(i, b), h1, rfl⟩
          have := (List.nodup_cons.mp hn).1
          rw [he] at this
          exact this ‹i ∈ rest.map Prod.fst›
        have hn' : KeysNodup rest := (List.nodup_cons.mp hn).2
        simp [lookupI, hp, ih hn' h1]

theorem keysNodup_sublist {l l' : List (Iv × Nat)} (hs : List.Sublist l' l)
    (hn : KeysNodup l) : KeysNodup l' :=
  List.Nodup.sublist (List.Sublist.map Prod.fst hs) hn

theorem lookupI_of_sublist {l l' : List (Iv × Nat)} {i : Iv} {b : Nat}
    (hs : List.Sublist l' l) (hn : KeysNodup l) (h : lookupI l' i = some b) :
    lookupI l i = some b :=
  lookupI_of_mem hn (hs.mem (mem_of_lookupI h))

theorem removeKey_sublist (l : List (Iv × Nat)) (i : Iv) :
    List.Sublist (removeKey l i) l :=
  List.filter_sublist l

theorem lookupI_removeKey_self (l : List (Iv × Nat)) (i : Iv) :
    lookupI (removeKey l i) i = none := by
  rw [lookupI_eq_none]
  intro p hp
  have := List.of_mem_filter hp
  simpa using this

theorem lookupI_removeKey_ne (l : List (Iv × Nat)) {i j : Iv} (h : j ≠ i) :
    lookupI (removeKey l i) j = lookupI l j := by
  induction l with
  | nil => simp [removeKey, lookupI]
  | cons p rest ih =>
      by_cases hp : p.1 = i
      · have hpj : p.1 ≠ j := by rw [hp]; exact fun he => h he.symm
        have : removeKey (p :: rest) i = removeKey rest i := by
          simp [removeKey, List.filter_cons, hp]
        rw [this, ih, lookupI, if_neg hpj]
      · have : removeKey (p :: rest) i = p :: removeKey rest i := by
          simp [removeKey, List.filter_cons, hp]
        rw [this]
        by_cases hpj : p.1 = j
        · simp [lookupI, hpj]
        · simp only [lookupI, if_neg hpj]
          exact ih
theorem removeKey_eq_self {l : List (Iv × Nat)} {i : Iv}
    (h : lookupI l i = none) : removeKey l i = l := by
  rw [lookupI_eq_none] at h
  exact List.filter_eq_self.mpr (fun p hp => by simpa using h p hp)

theorem mem_addUnique (l : List Nat) (c x : Nat) :
    x ∈ addUnique l c ↔ x ∈ l ∨ x = c := by
  by_cases h : c ∈ l
  · simp [addUnique, h]
    intro he; subst he; exact h
  · simp [addUnique, h]

theorem addUnique_nodup {l : List Nat} (hn : l.Nodup) (c : Nat) :
    (addUnique l c).Nodup := by
  by_cases h : c ∈ l
  · simpa [addUnique, h] using hn
  · rw [addUnique, if_neg h]
    exact List.Nodup.append hn (List.nodup_singleton c)
      (by simpa [List.disjoint_singleton] using h)

theorem addUnique_of_mem {l : List Nat} {c : Nat} (h : c ∈ l) :
    addUnique l c = l := by
  simp [addUnique, h]

/-! ## Component lemmas for the engine operations -/

theorem engineClear_subs (w : World) (id : Option Nat) :
    (engineClear w id).subs = w.subs := by
  cases id with
  | none => rfl
  | some t => by_cases h : w.injected <;> simp [engineClear, h]

theorem engineClear_heap (w : World) (id : Option Nat) :
    (engineClear w id).heap = w.heap := by
  cases id with
  | none => rfl
  | some t => by_cases h : w.injected <;> simp [engineClear, h]

theorem engineClear_latest (w : World) (id : Option Nat) :
    (engineClear w id).latest = w.latest := by
  cases id with
  | none => rfl
  | some t => by_cases h : w.injected <;> simp [engineClear, h]

theorem engineClear_nextB (w : World) (id : Option Nat) :
    (engineClear w id).nextB = w.nextB := by
  cases id with
  | none => rfl
  | some t => by_cases h : w.injected <;> simp [engineClear, h]

theorem engineClear_nextT (w : World) (id : Option Nat) :
    (engineClear w id).nextT = w.nextT := by
  cases id with
  | none => rfl
  | some t => by_cases h : w.injected <;> simp [engineClear, h]

theorem engineClear_injected (w : World) (id : Option Nat) :
    (engineClear w id).injected = w.injected := by
  cases id with
  | none => rfl
  | some t => by_cases h : w.injected <;> simp [engineClear, h]

theorem engineClear_nextTickId (w : World) (id : Option Nat) :
    (engineClear w id).nextTickId = w.nextTickId := by
  cases id with
  | none => rfl
  | some t => by_cases h : w.injected <;> simp [engineClear, h]

theorem engineClear_nextTickMs (w : World) (id : Option Nat) :
    (engineClear w id).nextTickMs = w.nextTickMs := by
  cases id with
  | none => rfl
  | some t => by_cases h : w.injected <;> simp [engineClear, h]

theorem engineArm_subs (w : World) (d : Iv) :
    (engineArm w d).subs = w.subs := by
  by_cases h : w.injected <;> simp [engineArm, h]

theorem engineArm_heap (w : World) (d : Iv) :
    (engineArm w d).heap = w.heap := by
  by_cases h : w.injected <;> simp [engineArm, h]

theorem engineArm_latest (w : World) (d : Iv) :
    (engineArm w d).latest = w.latest := by
  by_cases h : w.injected <;> simp [engineArm, h]

theorem engineArm_nextB (w : World) (d : Iv) :
    (engineArm w d).nextB = w.nextB := by
  by_cases h : w.injected <;> simp [engineArm, h]

theorem scheduleNextTick_subs (w : World) :
    (scheduleNextTick w).subs = w.subs := by
  rw [scheduleNextTick]
  split <;> simp [engineClear_subs, engineArm_subs]

theorem scheduleNextTick_heap (w : World) :
    (scheduleNextTick w).heap = w.heap := by
  rw [scheduleNextTick]
  split <;> simp [engineClear_heap, engineArm_heap]

theorem scheduleNextTick_latest (w : World) :
    (scheduleNextTick w).latest = w.latest := by
  rw [scheduleNextTick]
  split <;> simp [engineClear_latest, engineArm_latest]

theorem scheduleNextTick_nextB (w : World) :
    (scheduleNextTick w).nextB = w.nextB := by
  rw [scheduleNextTick]
  split <;> simp [engineClear_nextB, engineArm_nextB]

theorem setHeap_heap_self (w : World) (b : Nat) (l : List Nat) :
    (setHeap w b l).heap b = l := by
  simp [setHeap]

theorem setHeap_heap_ne (w : World) {b x : Nat} (l : List Nat) (h : x ≠ b) :
    (setHeap w b l).heap x = w.heap x := by
  simp [setHeap, h]

theorem subscribe_latest (i : Iv) (c : Nat) (w : World) :
    (subscribe i c w).1.latest = w.latest := by
  rw [subscribe]
  cases h : lookupI w.subs i with
  | some b => simp [setHeap]
  | none => simp [setHeap, scheduleNextTick_latest]

theorem unsubscribeTok_latest (t : Token) (w : World) :
    (unsubscribeTok t w).latest = w.latest := by
  rw [unsubscribeTok]
  by_cases h : (w.heap t.b).erase t.c = []
  · simp [h, scheduleNextTick_latest, setHeap]
  · simp [h, setHeap]

theorem cleanup_latest (w : World) :
    (cleanup w).latest = w.latest := by
  rw [cleanup]
  cases w.nextTickId <;> simp [windowClear]

theorem cleanup_subs (w : World) :
    (cleanup w).subs = w.subs := by
  rw [cleanup]
  cases w.nextTickId <;> simp [windowClear]

theorem cleanup_heap (w : World) :
    (cleanup w).heap = w.heap := by
  rw [cleanup]
  cases w.nextTickId <;> simp [windowClear]

/-- `subscribe` on an interval that already has a bucket: the map is
untouched and only that bucket's cell can change. -/
theorem subscribe_existing (i : Iv) (c : Nat) (w : World) {b : Nat}
    (h : lookupI w.subs i = some b) :
    subscribe i c w = (setHeap w b (addUnique (w.heap b) c), ⟨b, i, c⟩) := by
  rw [subscribe, h]

/-- `subscribe` on a fresh interval: component description. -/
theorem subscribe_new_subs (i : Iv) (c : Nat) (w : World)
    (h : lookupI w.subs i = none) :
    (subscribe i c w).1.subs = w.subs ++ [(i, w.nextB)] := by
  rw [subscribe, h]
  simp [setHeap, scheduleNextTick_subs]

theorem subscribe_new_heap (i : Iv) (c : Nat) (w : World)
    (h : lookupI w.subs i = none) (x : Nat) :
    (subscribe i c w).1.heap x = if x = w.nextB then [c] else w.heap x := by
  rw [subscribe, h]
  by_cases hx : x = w.nextB
  · subst hx
    simp [setHeap, scheduleNextTick_heap, addUnique]
  · simp [setHeap, scheduleNextTick_heap, hx]

theorem subscribe_new_nextB (i : Iv) (c : Nat) (w : World)
    (h : lookupI w.subs i = none) :
    (subscribe i c w).1.nextB = w.nextB + 1 := by
  rw [subscribe, h]
  simp [setHeap, scheduleNextTick_nextB]

theorem subscribe_token (i : Iv) (c : Nat) (w : World) :
    (subscribe i c w).2 = ⟨lookupI w.subs i |>.getD w.nextB, i, c⟩ := by
  rw [subscribe]
  cases h : lookupI w.subs i <;> simp

/-! ## Monotonicity of dispatch: during a tick, buckets and the map only
shrink (unsubscribe is the only re-entry; nothing is ever inserted). -/

theorem unsubscribeTok_subs (t : Token) (w : World) :
    (unsubscribeTok t w).subs =
      if (w.heap t.b).erase t.c = [] then removeKey w.subs t.i else w.subs := by
  rw [unsubscribeTok]
  by_cases h : (w.heap t.b).erase t.c = []
  · simp [h, scheduleNextTick_subs, setHeap]
  · simp [h, setHeap]

theorem unsubscribeTok_heap (t : Token) (w : World) (x : Nat) :
    (unsubscribeTok t w).heap x =
      if x = t.b then (w.heap t.b).erase t.c else w.heap x := by
  rw [unsubscribeTok]
  by_cases h : (w.heap t.b).erase t.c = [] <;> by_cases hx : x = t.b <;>
    simp [h, hx, scheduleNextTick_heap, setHeap]

theorem Shrinks.rfl (w : World) : Shrinks w w :=
  ⟨List.Sublist.refl _, fun _ => List.Sublist.refl _⟩

theorem Shrinks.comp {a b c : World} (h1 : Shrinks a b) (h2 : Shrinks b c) :
    Shrinks a c :=
  ⟨h2.1.trans h1.1, fun x => (h2.2 x).trans (h1.2 x)⟩

theorem unsubscribeTok_shrinks (t : Token) (w : World) :
    Shrinks w (unsubscribeTok t w) := by
  constructor
  · rw [unsubscribeTok_subs]
    by_cases h : (w.heap t.b).erase t.c = []
    · simpa [h] using removeKey_sublist w.subs t.i
    · simp [h]
  · intro x
    rw [unsubscribeTok_heap]
    by_cases hx : x = t.b
    · subst hx
      simpa using List.erase_sublist t.c (w.heap t.b)
    · simp [hx]

theorem applyUnsubs_shrinks (ts : List Token) (w : World) :
    Shrinks w (applyUnsubs ts w) := by
  induction ts generalizing w with
  | nil => exact Shrinks.rfl w
  | cons t rest ih =>
      exact Shrinks.comp (unsubscribeTok_shrinks t w) (ih (unsubscribeTok t w))

theorem dispatchBucket_shrinks (beh : Beh) (now : Nat) (i : Iv) (b : Nat)
    (walk : List Nat) (w : World) :
    Shrinks w (dispatchBucket beh now i b walk w).1 := by
  induction walk generalizing w with
  | nil => exact Shrinks.rfl w
  | cons c rest ih =>
      rw [dispatchBucket]
      by_cases hmem : c ∈ w.heap b
      · by_cases hthr : beh.throws c
        · simpa [hmem, hthr] using Shrinks.rfl w
        · simpa [hmem, hthr] using
            Shrinks.comp (applyUnsubs_shrinks (beh.unsubs c) w)
              (ih (applyUnsubs (beh.unsubs c) w))
      · simpa [hmem] using ih w

theorem dispatchKeys_shrinks (beh : Beh) (now : Nat)
    (L : List (Iv × Nat)) (w : World) :
    Shrinks w (dispatchKeys beh now L w).1 := by
  induction L generalizing w with
  | nil => exact Shrinks.rfl w
  | cons p rest ih =>
      rw [dispatchKeys]
      by_cases hk : lookupI w.subs p.1 = some p.2
      · by_cases hthr : (dispatchBucket beh now p.1 p.2 (w.heap p.2) w).2.2
        · simpa [hk, hthr] using dispatchBucket_shrinks beh now p.1 p.2 (w.heap p.2) w
        · simpa [hk, hthr] using
            Shrinks.comp (dispatchBucket_shrinks beh now p.1 p.2 (w.heap p.2) w)
              (ih (dispatchBucket beh now p.1 p.2 (w.heap p.2) w).1)
      · simpa [hk] using ih w

theorem applyUnsubs_latest (ts : List Token) (w : World) :
    (applyUnsubs ts w).latest = w.latest := by
  induction ts generalizing w with
  | nil => rfl
  | cons t rest ih =>
      show (applyUnsubs rest (unsubscribeTok t w)).latest = w.latest
      rw [ih, unsubscribeTok_latest]

theorem dispatchBucket_latest (beh : Beh) (now : Nat) (i : Iv) (b : Nat)
    (walk : List Nat) (w : World) :
    (dispatchBucket beh now i b walk w).1.latest = w.latest := by
  induction walk generalizing w with
  | nil => rfl
  | cons c rest ih =>
      rw [dispatchBucket]
      by_cases hmem : c ∈ w.heap b
      · by_cases hthr : beh.throws c
        · simp [hmem, hthr]
        · simp only [hmem, hthr, if_true, if_false, Bool.false_eq_true, if_neg]
          rw [ih, applyUnsubs_latest]
      · simpa [hmem] using ih w

theorem dispatchKeys_latest (beh : Beh) (now : Nat)
    (L : List (Iv × Nat)) (w : World) :
    (dispatchKeys beh now L w).1.latest = w.latest := by
  induction L generalizing w with
  | nil => rfl
  | cons p rest ih =>
      rw [dispatchKeys]
      by_cases hk : lookupI w.subs p.1 = some p.2
      · by_cases hthr : (dispatchBucket beh now p.1 p.2 (w.heap p.2) w).2.2
        · simp [hk, hthr, dispatchBucket_latest]
        · simp only [hk, if_pos, hthr, Bool.false_eq_true, if_neg, if_false]
          rw [ih, dispatchBucket_latest]
      · simpa [hk] using ih w

/-- After a tick the engine's current-value slot holds the snapshot that
was captured at the start of the tick. -/
theorem tick_latest (beh : Beh) (now : Nat) (w : World) :
    (tick beh now w).1.latest = now := by
  rw [tick, dispatchKeys_latest]

/-! ## Equation lemmas for the dispatch loops -/

theorem db_cons_notmem {beh : Beh} {now : Nat} {i : Iv} {b : Nat}
    {c : Nat} {rest : List Nat} {w : World} (hmem : c ∉ w.heap b) :
    dispatchBucket beh now i b (c :: rest) w = dispatchBucket beh now i b rest w := by
  rw [dispatchBucket]
  simp [hmem]

theorem db_cons_throw {beh : Beh} {now : Nat} {i : Iv} {b : Nat}
    {c : Nat} {rest : List Nat} {w : World} (hmem : c ∈ w.heap b)
    (hthr : beh.throws c = true) :
    dispatchBucket beh now i b (c :: rest) w = (w, [(i, c, now)], true) := by
  rw [dispatchBucket]
  simp [hmem, hthr]

theorem db_cons_step {beh : Beh} {now : Nat} {i : Iv} {b : Nat}
    {c : Nat} {rest : List Nat} {w : World} (hmem : c ∈ w.heap b)
    (hthr : beh.throws c = false) :
    dispatchBucket beh now i b (c :: rest) w =
      ((dispatchBucket beh now i b rest (applyUnsubs (beh.unsubs c) w)).1,
       (i, c, now) :: (dispatchBucket beh now i b rest (applyUnsubs (beh.unsubs c) w)).2.1,
       (dispatchBucket beh now i b rest (applyUnsubs (beh.unsubs c) w)).2.2) := by
  rw [dispatchBucket]
  simp [hmem, hthr]

theorem dk_cons_miss {beh : Beh} {now : Nat} {p : Iv × Nat}
    {rest : List (Iv × Nat)} {w : World}
    (hk : ¬ lookupI w.subs p.1 = some p.2) :
    dispatchKeys beh now (p :: rest) w = dispatchKeys beh now rest w := by
  rw [dispatchKeys]
  simp [hk]

theorem dk_cons_throw {beh : Beh} {now : Nat} {p : Iv × Nat}
    {rest : List (Iv × Nat)} {w : World}
    (hk : lookupI w.subs p.1 = some p.2)
    (ht : (dispatchBucket beh now p.1 p.2 (w.heap p.2) w).2.2 = true) :
    dispatchKeys beh now (p :: rest) w =
      dispatchBucket beh now p.1 p.2 (w.heap p.2) w := by
  rw [dispatchKeys]
  simp [hk, ht]

theorem dk_cons_step {beh : Beh} {now : Nat} {p : Iv × Nat}
    {rest : List (Iv × Nat)} {w : World}
    (hk : lookupI w.subs p.1 = some p.2)
    (ht : (dispatchBucket beh now p.1 p.2 (w.heap p.2) w).2.2 = false) :
    dispatchKeys beh now (p :: rest) w =
      ((dispatchKeys beh now rest (dispatchBucket beh now p.1 p.2 (w.heap p.2) w).1).1,
       (dispatchBucket beh now p.1 p.2 (w.heap p.2) w).2.1 ++
         (dispatchKeys beh now rest (dispatchBucket beh now p.1 p.2 (w.heap p.2) w).1).2.1,
       (dispatchKeys beh now rest (dispatchBucket beh now p.1 p.2 (w.heap p.2) w).1).2.2) := by
  rw [dispatchKeys]
  simp [hk, ht]

/-! ## Tagging, counting, completeness and no-throw lemmas -/

theorem db_tag {beh : Beh} {now : Nat} {i : Iv} {b : Nat} :
    ∀ (walk : List Nat) (w : World),
      ∀ e ∈ (dispatchBucket beh now i b walk w).2.1,
        e.1 = i ∧ e.2.2 = now ∧ e.2.1 ∈ walk := by
  intro walk
  induction walk with
  | nil => intro w e he; simp [dispatchBucket] at he
  | cons c rest ih =>
      intro w e he
      by_cases hmem : c ∈ w.heap b
      · cases hthr : beh.throws c with
        | true =>
            rw [db_cons_throw hmem hthr] at he
            simp at he
            subst he
            simp
        | false =>
            rw [db_cons_step hmem hthr] at he
            rcases List.mem_cons.mp he with he1 | he1
            · subst he1; simp
            · rcases ih _ e he1 with ⟨h1, h2, h3⟩
              exact ⟨h1, h2, List.mem_cons_of_mem _ h3⟩
      · rw [db_cons_notmem hmem] at he
        rcases ih _ e he with ⟨h1, h2, h3⟩
        exact ⟨h1, h2, List.mem_cons_of_mem _ h3⟩

theorem db_nothrow {beh : Beh} {now : Nat} {i : Iv} {b : Nat}
    (hthr : ∀ x, beh.throws x = false) :
    ∀ (walk : List Nat) (w : World),
      (dispatchBucket beh now i b walk w).2.2 = false := by
  intro walk
  induction walk with
  | nil => intro w; rfl
  | cons c rest ih =>
      intro w
      by_cases hmem : c ∈ w.heap b
      · rw [db_cons_step hmem (hthr c)]
        exact ih _
      · rw [db_cons_notmem hmem]
        exact ih w

theorem dk_nothrow {beh : Beh} {now : Nat}
    (hthr : ∀ x, beh.throws x = false) :
    ∀ (L : List (Iv × Nat)) (w : World),
      (dispatchKeys beh now L w).2.2 = false := by
  intro L
  induction L with
  | nil => intro w; rfl
  | cons p rest ih =>
      intro w
      by_cases hk : lookupI w.subs p.1 = some p.2
      · rw [dk_cons_step hk (db_nothrow hthr _ _)]
        exact ih _
      · rw [dk_cons_miss hk]
        exact ih w

theorem dk_tag {beh : Beh} {now : Nat} :
    ∀ (L : List (Iv × Nat)) (w : World),
      ∀ e ∈ (dispatchKeys beh now L w).2.1,
        ∃ p ∈ L, e.1 = p.1 ∧ e.2.2 = now := by
  intro L
  induction L with
  | nil => intro w e he; simp [dispatchKeys] at he
  | cons p rest ih =>
      intro w e he
      by_cases hk : lookupI w.subs p.1 = some p.2
      · cases ht : (dispatchBucket beh now p.1 p.2 (w.heap p.2) w).2.2 with
        | true =>
            rw [dk_cons_throw hk ht] at he
            rcases db_tag _ _ e he with ⟨h1, h2, _⟩
            exact ⟨p, List.mem_cons_self _ _, h1, h2⟩
        | false =>
            rw [dk_cons_step hk ht] at he
            rcases List.mem_append.mp he with he1 | he1
            · rcases db_tag _ _ e he1 with ⟨h1, h2, _⟩
              exact ⟨p, List.mem_cons_self _ _, h1, h2⟩
            · rcases ih _ e he1 with ⟨q, hq, h1, h2⟩
              exact ⟨q, List.mem_cons_of_mem _ hq, h1, h2⟩
      · rw [dk_cons_miss hk] at he
        rcases ih _ e he with ⟨q, hq, h1, h2⟩
        exact ⟨q, List.mem_cons_of_mem _ hq, h1, h2⟩

theorem db_count {beh : Beh} {now : Nat} {i : Iv} {b : Nat} (c : Nat) :
    ∀ (walk : List Nat) (w : World),
      (dispatchBucket beh now i b walk w).2.1.count (i, c, now) ≤ walk.count c := by
  intro walk
  induction walk with
  | nil => intro w; simp [dispatchBucket]
  | cons c0 rest ih =>
      intro w
      by_cases hmem : c0 ∈ w.heap b
      · cases hthr : beh.throws c0 with
        | true =>
            rw [db_cons_throw hmem hthr]
            simp only [List.count_cons, List.count_nil, List.count_singleton]
            by_cases hc : c0 = c
            · subst hc; simp
            · have h1 : ¬ ((i, c0, now) : Entry) = (i, c, now) := by
                simp [hc]
              simp [h1, hc]
        | false =>
            rw [db_cons_step hmem hthr]
            simp only [List.count_cons]
            by_cases hc : c0 = c
            · subst hc
              simp only [beq_self_eq_true, if_true]
              exact Nat.add_le_add_right (ih _) 1
            · have h1 : ¬ (((i, c0, now) : Entry) == (i, c, now)) = true := by
                simp [hc]
              have h2 : ¬ ((c0 == c) = true) := by simp [hc]
              simp only [h1, h2, if_false]
              exact Nat.le_trans (ih _) (Nat.le_add_right _ _)
      · rw [db_cons_notmem hmem]
        simp only [List.count_cons]
        by_cases hc : c0 = c
        · subst hc
          simp only [beq_self_eq_true, if_true]
          exact Nat.le_trans (ih w) (Nat.le_add_right _ _)
        · have h2 : ¬ ((c0 == c) = true) := by simp [hc]
          simp only [h2, if_false]
          exact ih w

theorem db_complete {beh : Beh} {now : Nat} {i : Iv} {b : Nat} {c : Nat}
    (hthr : ∀ x, beh.throws x = false) :
    ∀ (walk : List Nat) (w : World), c ∈ walk →
      c ∈ (dispatchBucket beh now i b walk w).1.heap b →
      (i, c, now) ∈ (dispatchBucket beh now i b walk w).2.1 := by
  intro walk
  induction walk with
  | nil => intro w hc; simp at hc
  | cons c0 rest ih =>
      intro w hc hfin
      by_cases hmem : c0 ∈ w.heap b
      · rw [db_cons_step hmem (hthr c0)] at hfin ⊢
        by_cases hcc : c = c0
        · subst hcc; exact List.mem_cons_self _ _
        · have hcr : c ∈ rest := by
            rcases List.mem_cons.mp hc with h | h
            · exact absurd h hcc
            · exact h
          exact List.mem_cons_of_mem _ (ih _ hcr hfin)
      · rw [db_cons_notmem hmem] at hfin ⊢
        by_cases hcc : c = c0
        · subst hcc
          have := (dispatchBucket_shrinks beh now i b rest w).2 b |>.mem hfin
          exact absurd this hmem
        · have hcr : c ∈ rest := by
            rcases List.mem_cons.mp hc with h | h
            · exact absurd h hcc
            · exact h
          exact ih w hcr hfin

theorem count_eq_zero_of_tag {l : List Entry} {i : Iv} {c : Nat} {now : Nat}
    (h : ((i, c, now) : Entry) ∉ l) : l.count (i, c, now) = 0 :=
  List.count_eq_zero.mpr h

theorem dk_complete {beh : Beh} {now : Nat} {i : Iv} {b : Nat} {c : Nat}
    (hthr : ∀ x, beh.throws x = false) :
    ∀ (L : List (Iv × Nat)) (w : World), KeysNodup w.subs → (i, b) ∈ L →
      lookupI (dispatchKeys beh now L w).1.subs i = some b →
      c ∈ (dispatchKeys beh now L w).1.heap b →
      (i, c, now) ∈ (dispatchKeys beh now L w).2.1 := by
  intro L
  induction L with
  | nil => intro w _ hib; simp at hib
  | cons p rest ih =>
      intro w hkn hib hlook hfin
      by_cases hk : lookupI w.subs p.1 = some p.2
      · have hdb0 := @db_nothrow beh now p.1 p.2 hthr (w.heap p.2) w
        rw [dk_cons_step hk hdb0] at hlook hfin ⊢
        rcases List.mem_cons.mp hib with hib1 | hib1
        · have hpi : i = p.1 := congrArg Prod.fst hib1
          have hpb : b = p.2 := congrArg Prod.snd hib1
          subst hpi
          subst hpb
          have hshr2 := dispatchKeys_shrinks beh now rest
            (dispatchBucket beh now p.1 p.2 (w.heap p.2) w).1
          have hc1 : c ∈ (dispatchBucket beh now p.1 p.2 (w.heap p.2) w).1.heap p.2 :=
            (hshr2.2 p.2).mem hfin
          have hc0 : c ∈ w.heap p.2 :=
            ((dispatchBucket_shrinks beh now p.1 p.2 (w.heap p.2) w).2 p.2).mem hc1
          exact List.mem_append.mpr (Or.inl (db_complete hthr _ w hc0 hc1))
        · have hkn1 : KeysNodup (dispatchBucket beh now p.1 p.2 (w.heap p.2) w).1.subs :=
            keysNodup_sublist (dispatchBucket_shrinks beh now p.1 p.2 (w.heap p.2) w).1 hkn
          exact List.mem_append.mpr (Or.inr (ih _ hkn1 hib1 hlook hfin))
      · rw [dk_cons_miss hk] at hlook hfin ⊢
        rcases List.mem_cons.mp hib with hib1 | hib1
        · have hpi : i = p.1 := congrArg Prod.fst hib1
          have hpb : b = p.2 := congrArg Prod.snd hib1
          have hw : lookupI w.subs i = some b :=
            lookupI_of_sublist (dispatchKeys_shrinks beh now rest w).1 hkn hlook
          rw [← hpi, ← hpb] at hk
          exact absurd (hpb ▸ hw) hk
        · exact ih w hkn hib1 hlook hfin


theorem dk_count {beh : Beh} {now : Nat} {i : Iv} (c : Nat) :
    ∀ (L : List (Iv × Nat)) (w : World), KeysNodup L →
      (∀ p ∈ L, (w.heap p.2).Nodup) →
      (dispatchKeys beh now L w).2.1.count (i, c, now) ≤ 1 := by
  intro L
  induction L with
  | nil => intro w _ _; simp [dispatchKeys]
  | cons p rest ih =>
      intro w hkn hnd
      have hknr : KeysNodup rest := (List.nodup_cons.mp hkn).2
      have hpr : p.1 ∉ rest.map Prod.fst := (List.nodup_cons.mp hkn).1
      by_cases hk : lookupI w.subs p.1 = some p.2
      · have hbound : (dispatchBucket beh now p.1 p.2 (w.heap p.2) w).2.1.count (i, c, now) ≤ 1 := by
          by_cases hip : i = p.1
          · subst hip
            exact Nat.le_trans (db_count c _ w)
              (List.nodup_iff_count_le_one.mp (hnd p (List.mem_cons_self _ _)) c)
          · have h0 : (dispatchBucket beh now p.1 p.2 (w.heap p.2) w).2.1.count (i, c, now) = 0 :=
              count_eq_zero_of_tag (fun hmem => hip (db_tag _ w _ hmem).1)
            rw [h0]
            exact Nat.zero_le 1
        cases ht : (dispatchBucket beh now p.1 p.2 (w.heap p.2) w).2.2 with
        | true =>
            rw [dk_cons_throw hk ht]
            exact hbound
        | false =>
            rw [dk_cons_step hk ht]
            simp only [List.count_append]
            by_cases hip : i = p.1
            · subst hip
              have hz : (dispatchKeys beh now rest
                  (dispatchBucket beh now p.1 p.2 (w.heap p.2) w).1).2.1.count (p.1, c, now) = 0 := by
                refine count_eq_zero_of_tag ?hm
                intro hmem
                rcases dk_tag _ _ _ hmem with ⟨q, hq, h1, _⟩
                refine hpr ?hq2
                rw [show (p.1 : Iv) = q.1 from h1]
                exact List.mem_map.mpr ⟨q, hq, rfl⟩
              rw [hz, Nat.add_zero]
              exact hbound
            · have hz1 : (dispatchBucket beh now p.1 p.2 (w.heap p.2) w).2.1.count (i, c, now) = 0 :=
                count_eq_zero_of_tag (fun hmem => hip (db_tag _ w _ hmem).1)
              rw [hz1, Nat.zero_add]
              refine ih _ hknr ?hnd2
              intro q hq
              exact List.Nodup.sublist
                ((dispatchBucket_shrinks beh now p.1 p.2 (w.heap p.2) w).2 q.2)
                (hnd q (List.mem_cons_of_mem _ hq))
      · rw [dk_cons_miss hk]
        refine ih w hknr ?hnd3
        intro q hq
        exact hnd q (List.mem_cons_of_mem _ hq)

/-! ## Dispatch without re-entry: the world is untouched -/

theorem db_world_nounsub {beh : Beh} {now : Nat} {i : Iv} {b : Nat}
    (hnu : ∀ x, beh.unsubs x = []) :
    ∀ (walk : List Nat) (w : World),
      (dispatchBucket beh now i b walk w).1 = w := by
  intro walk
  induction walk with
  | nil => intro w; rfl
  | cons c rest ih =>
      intro w
      by_cases hmem : c ∈ w.heap b
      · cases hthr : beh.throws c with
        | true => rw [db_cons_throw hmem hthr]
        | false =>
            rw [db_cons_step hmem hthr]
            show (dispatchBucket beh now i b rest (applyUnsubs (beh.unsubs c) w)).1 = w
            rw [hnu c]
            exact ih w
      · rw [db_cons_notmem hmem]
        exact ih w

theorem dk_world_nounsub {beh : Beh} {now : Nat}
    (hnu : ∀ x, beh.unsubs x = []) :
    ∀ (L : List (Iv × Nat)) (w : World),
      (dispatchKeys beh now L w).1 = w := by
  intro L
  induction L with
  | nil => intro w; rfl
  | cons p rest ih =>
      intro w
      by_cases hk : lookupI w.subs p.1 = some p.2
      · cases ht : (dispatchBucket beh now p.1 p.2 (w.heap p.2) w).2.2 with
        | true =>
            rw [dk_cons_throw hk ht]
            exact db_world_nounsub hnu _ w
        | false =>
            rw [dk_cons_step hk ht]
            show (dispatchKeys beh now rest (dispatchBucket beh now p.1 p.2 (w.heap p.2) w).1).1 = w
            rw [db_world_nounsub hnu _ w]
            exact ih w
      · rw [dk_cons_miss hk]
        exact ih w

/-- Every notification delivered by a dispatch that performs no
unsubscriptions names a callback registered in the (unchanged) world. -/
theorem dk_sound_nounsub {beh : Beh} {now : Nat}
    (hnu : ∀ x, beh.unsubs x = []) :
    ∀ (L : List (Iv × Nat)) (w : World),
      ∀ e ∈ (dispatchKeys beh now L w).2.1,
        ∃ b2, lookupI w.subs e.1 = some b2 ∧ e.2.1 ∈ w.heap b2 ∧ e.2.2 = now := by
  intro L
  induction L with
  | nil => intro w e he; simp [dispatchKeys] at he
  | cons p rest ih =>
      intro w e he
      by_cases hk : lookupI w.subs p.1 = some p.2
      · cases ht : (dispatchBucket beh now p.1 p.2 (w.heap p.2) w).2.2 with
        | true =>
            rw [dk_cons_throw hk ht] at he
            rcases db_tag _ _ e he with ⟨h1, h2, h3⟩
            exact ⟨p.2, h1 ▸ hk, h3, h2⟩
        | false =>
            rw [dk_cons_step hk ht] at he
            rcases List.mem_append.mp he with he1 | he1
            · rcases db_tag _ _ e he1 with ⟨h1, h2, h3⟩
              exact ⟨p.2, h1 ▸ hk, h3, h2⟩
            · have hw := @db_world_nounsub beh now p.1 p.2 hnu (w.heap p.2) w
              rw [hw] at he1
              exact ih w e he1
      · rw [dk_cons_miss hk] at he
        exact ih w e he

/-! ## Scheduler-registry lemmas -/

theorem engineClear_engineLive_some (w : World) (t : Nat) :
    engineLive (engineClear w (some t)) =
      (engineLive w).filter (fun p => decide (p.1 ≠ t)) := by
  by_cases h : w.injected <;> simp [engineClear, engineLive, h]

theorem engineClear_otherLive (w : World) (id : Option Nat) :
    otherLive (engineClear w id) = otherLive w := by
  cases id with
  | none => rfl
  | some t => by_cases h : w.injected <;> simp [engineClear, otherLive, h]

theorem engineArm_engineLive (w : World) (d : Iv) :
    engineLive (engineArm w d) = engineLive w ++ [(w.nextT, d)] := by
  by_cases h : w.injected <;> simp [engineArm, engineLive, h]

theorem engineArm_otherLive (w : World) (d : Iv) :
    otherLive (engineArm w d) = otherLive w := by
  by_cases h : w.injected <;> simp [engineArm, otherLive, h]

theorem engineArm_nextTickId (w : World) (d : Iv) :
    (engineArm w d).nextTickId = some w.nextT := by
  by_cases h : w.injected <;> simp [engineArm, h]

theorem engineArm_nextTickMs (w : World) (d : Iv) :
    (engineArm w d).nextTickMs = w.nextTickMs := by
  by_cases h : w.injected <;> simp [engineArm, h]

theorem engineArm_nextT (w : World) (d : Iv) :
    (engineArm w d).nextT = w.nextT + 1 := by
  by_cases h : w.injected <;> simp [engineArm, h]

theorem mem_engineLive_mem_append {w : World} {p : Nat × Iv}
    (h : p ∈ engineLive w) : p ∈ w.liveInj ++ w.liveWin := by
  by_cases hinj : w.injected
  · simp [engineLive, hinj] at h
    exact List.mem_append.mpr (Or.inl h)
  · simp [engineLive, hinj] at h
    exact List.mem_append.mpr (Or.inr h)

/-! ## Shared helper for exactly-once delivery on a passive tick -/

theorem tick_passive_count_one (w : World) (now : Nat)
    (hkeys : KeysNodup w.subs)
    (hnodup : ∀ p ∈ w.subs, (w.heap p.2).Nodup)
    {i : Iv} {b c : Nat}
    (hb : lookupI w.subs i = some b) (hc : c ∈ w.heap b) :
    (tick passiveBeh now w).2.1.count (i, c, now) = 1 := by
  rw [tick]
  have hworld : (dispatchKeys passiveBeh now w.subs { w with latest := now }).1 =
      { w with latest := now } := dk_world_nounsub (fun _ => rfl) _ _
  apply Nat.le_antisymm
  · exact dk_count c w.subs { w with latest := now } hkeys hnodup
  · have hmem : (i, c, now) ∈ (dispatchKeys passiveBeh now w.subs { w with latest := now }).2.1 := by
      refine dk_complete (fun _ => rfl) w.subs { w with latest := now } hkeys
        (mem_of_lookupI hb) ?hlook ?hfin
      · rw [hworld]
        exact hb
      · rw [hworld]
        exact hc
    exact List.count_pos_iff.mpr hmem

/-- Claim C1: on every tick exactly one snapshot is captured and written
to the current-value slot, every notification delivered during the tick
carries that identical snapshot, and (for callbacks that do not re-enter
the engine) every subscriber in every bucket — whatever interval it
requested, finite or unbounded — is notified exactly once with it. -/
theorem claim_C1 (w : World) (now : Nat)
    (hkeys : KeysNodup w.subs)
    (hnodup : ∀ p ∈ w.subs, (w.heap p.2).Nodup) :
    (tick passiveBeh now w).2.2 = false
  ∧ (tick passiveBeh now w).1.latest = now
  ∧ (∀ e ∈ (tick passiveBeh now w).2.1,
      e.2.2 = now ∧ e.2.2 = (tick passiveBeh now w).1.latest)
  ∧ (∀ p ∈ w.subs, ∀ c ∈ w.heap p.2,
      (tick passiveBeh now w).2.1.count (p.1, c, now) = 1) := by
  refine ⟨?thr, tick_latest _ _ _, ?vals, ?cnt⟩
  · rw [tick]
    exact dk_nothrow (fun _ => rfl) _ _
  · intro e he
    rw [tick] at he
    rcases dk_tag _ _ e he with ⟨p, _, _, h2⟩
    exact ⟨h2, by rw [h2, tick_latest]⟩
  · intro p hp c hc
    exact tick_passive_count_one w now hkeys hnodup (lookupI_of_mem hkeys hp) hc

/-- Witness for claim C1 on a concrete engine with a 1000 ms subscriber
and an unbounded subscriber. -/
theorem claim_C1_witness :
    (KeysNodup exC1.subs ∧ ∀ p ∈ exC1.subs, (exC1.heap p.2).Nodup)
  ∧ ((tick passiveBeh 7 exC1).2.2 = false
  ∧ (tick passiveBeh 7 exC1).1.latest = 7
  ∧ (∀ e ∈ (tick passiveBeh 7 exC1).2.1,
      e.2.2 = 7 ∧ e.2.2 = (tick passiveBeh 7 exC1).1.latest)
  ∧ (∀ p ∈ exC1.subs, ∀ c ∈ exC1.heap p.2,
      (tick passiveBeh 7 exC1).2.1.count (p.1, c, 7) = 1)) :=
  ⟨⟨by decide, by decide⟩, claim_C1 exC1 7 (by decide) (by decide)⟩

/-- Claim C9: `getValue` returns the most recently captured snapshot
without triggering a capture: it returns the construction-time snapshot
before any tick, is unchanged by subscribe/unsubscribe/cleanup/schedule
recomputation (so repeated calls between ticks agree), and after a tick
returns that tick's snapshot. -/
theorem claim_C9 :
    (∀ v inj, getValue (construct v inj) = v)
  ∧ (∀ i c w, getValue (subscribe i c w).1 = getValue w)
  ∧ (∀ t w, getValue (unsubscribeTok t w) = getValue w)
  ∧ (∀ w, getValue (cleanup w) = getValue w)
  ∧ (∀ w, getValue (scheduleNextTick w) = getValue w)
  ∧ (∀ beh now w, getValue (tick beh now w).1 = now) :=
  ⟨fun _ _ => rfl,
   fun i c w => subscribe_latest i c w,
   fun t w => unsubscribeTok_latest t w,
   fun w => cleanup_latest w,
   fun w => scheduleNextTick_latest w,
   fun beh now w => tick_latest beh now w⟩

/-- Claim C10: subscribing the identical callback at the identical
interval a second time is idempotent — the engine state is unchanged
componentwise (the callback sits in the bucket only once and a tick
notifies it exactly once), the returned closure is the same
(bucket, interval, callback) teardown, and invoking it removes the
callback from the bucket entirely. -/
theorem claim_C10 (w : World) (i : Iv) (b c : Nat)
    (hb : lookupI w.subs i = some b) (hc : c ∈ w.heap b)
    (hkeys : KeysNodup w.subs)
    (hnodup : ∀ p ∈ w.subs, (w.heap p.2).Nodup) :
    (subscribe i c w).1.subs = w.subs
  ∧ (∀ x, (subscribe i c w).1.heap x = w.heap x)
  ∧ (subscribe i c w).2 = ⟨b, i, c⟩
  ∧ (tick passiveBeh 0 (subscribe i c w).1).2.1.count (i, c, 0) = 1
  ∧ c ∉ (unsubscribeTok ⟨b, i, c⟩ (subscribe i c w).1).heap b := by
  have hsub : subscribe i c w = (setHeap w b (addUnique (w.heap b) c), ⟨b, i, c⟩) :=
    subscribe_existing i c w hb
  have hadd : addUnique (w.heap b) c = w.heap b := addUnique_of_mem hc
  have hheap : ∀ x, (subscribe i c w).1.heap x = w.heap x := by
    intro x
    rw [hsub, hadd]
    by_cases hx : x = b
    · rw [hx]
      exact setHeap_heap_self w b (w.heap b)
    · exact setHeap_heap_ne w (w.heap b) hx
  have hsubs : (subscribe i c w).1.subs = w.subs := by rw [hsub]; rfl
  have hbnodup : (w.heap b).Nodup := by
    have := hnodup (i, b) (mem_of_lookupI hb)
    simpa using this
  refine ⟨hsubs, hheap, by rw [hsub], ?cnt, ?gone⟩
  · refine @tick_passive_count_one (subscribe i c w).1 0 ?hk ?hn i b c ?hb2 ?hc2
    · rw [hsubs]; exact hkeys
    · intro p hp
      rw [hheap p.2]
      rw [hsubs] at hp
      exact hnodup p hp
    · rw [hsubs]; exact hb
    · rw [hheap b]; exact hc
  · rw [unsubscribeTok_heap]
    simp only [if_pos rfl]
    rw [show (subscribe i c w).1.heap b = w.heap b from hheap b]
    exact hbnodup.not_mem_erase

/-- Witness for claim C10: callback 7 at 1000 ms subscribed twice on a
concrete engine. -/
theorem claim_C10_witness :
    (lookupI exC10.1.subs (some 1000) = some 0 ∧ (7 : Nat) ∈ exC10.1.heap 0
      ∧ KeysNodup exC10.1.subs ∧ ∀ p ∈ exC10.1.subs, (exC10.1.heap p.2).Nodup)
  ∧ ((subscribe (some 1000) 7 exC10.1).1.subs = exC10.1.subs
  ∧ (∀ x, (subscribe (some 1000) 7 exC10.1).1.heap x = exC10.1.heap x)
  ∧ (subscribe (some 1000) 7 exC10.1).2 = ⟨0, some 1000, 7⟩
  ∧ (tick passiveBeh 0 (subscribe (some 1000) 7 exC10.1).1).2.1.count (some 1000, 7, 0) = 1
  ∧ (7 : Nat) ∉ (unsubscribeTok ⟨0, some 1000, 7⟩ (subscribe (some 1000) 7 exC10.1).1).heap 0) :=
  ⟨⟨by decide, by decide, by decide, by decide⟩,
   claim_C10 exC10.1 (some 1000) 0 7 (by decide) (by decide) (by decide) (by decide)⟩

/-- Claim C5 (code bug): after `cleanup()` on an engine constructed with
injected timer primitives, the timer armed through the injected
`setTimeout` is still pending — the source calls `window.clearTimeout`
instead of the injected `#clearTimeout` — so a further tick can still
fire even though the recorded handle was cleared. -/
theorem claim_C5_bug :
    (subscribe (some 1000) 5 (construct 0 true)).1.liveInj = [(0, none)]
  ∧ (subscribe (some 1000) 5 (construct 0 true)).1.nextTickId = some 0
  ∧ exC5.nextTickId = none
  ∧ exC5.liveInj = [(0, none)]
  ∧ exC5.liveWin = [] := by
  decide

/-- Claim C7 (code bug): with injected primitives, `cleanup()` clears the
recorded handle without cancelling the injected timer, so the next
subscribe-driven schedule recomputation arms a second timer while the
first is still live — two timer handles are live at once. -/
theorem claim_C7_bug :
    exC7.liveInj = [(0, none), (1, none)]
  ∧ exC7.liveInj.length = 2
  ∧ exC7.nextTickId = some 1 := by
  decide

/-- Claim C6, amended: a callback that throws during dispatch aborts
delivery to the remaining subscribers (the source has no try/catch), but
the fault does not corrupt engine state: when no callback re-enters the
engine, bucket membership, the pending-timer bookkeeping and both
scheduler registries are exactly as before the tick, the current-value
slot holds the snapshot captured at the start of the tick, and every
notification that was delivered carries that snapshot. -/
theorem claim_C6_amended (w : World) (beh : Beh) (now : Nat)
    (hnu : ∀ x, beh.unsubs x = []) :
    (tick beh now w).1.subs = w.subs
  ∧ (∀ x, (tick beh now w).1.heap x = w.heap x)
  ∧ (tick beh now w).1.nextTickId = w.nextTickId
  ∧ (tick beh now w).1.nextTickMs = w.nextTickMs
  ∧ (tick beh now w).1.liveInj = w.liveInj
  ∧ (tick beh now w).1.liveWin = w.liveWin
  ∧ (tick beh now w).1.latest = now
  ∧ (∀ e ∈ (tick beh now w).2.1, e.2.2 = now) := by
  have hworld : (tick beh now w).1 = { w with latest := now } := by
    rw [tick]
    exact dk_world_nounsub hnu _ _
  refine ⟨by rw [hworld], fun x => by rw [hworld], by rw [hworld],
    by rw [hworld], by rw [hworld], by rw [hworld], by rw [hworld], ?tag⟩
  intro e he
  rw [tick] at he
  rcases dk_tag _ _ e he with ⟨_, _, _, h2⟩
  exact h2

/-- Witness for the amended claim C6 on a concrete engine whose first
callback throws. -/
theorem claim_C6_witness :
    (∀ x, behC6.unsubs x = [])
  ∧ ((tick behC6 9 exC6).1.subs = exC6.subs
  ∧ (∀ x, (tick behC6 9 exC6).1.heap x = exC6.heap x)
  ∧ (tick behC6 9 exC6).1.nextTickId = exC6.nextTickId
  ∧ (tick behC6 9 exC6).1.nextTickMs = exC6.nextTickMs
  ∧ (tick behC6 9 exC6).1.liveInj = exC6.liveInj
  ∧ (tick behC6 9 exC6).1.liveWin = exC6.liveWin
  ∧ (tick behC6 9 exC6).1.latest = 9
  ∧ (∀ e ∈ (tick behC6 9 exC6).2.1, e.2.2 = 9)) :=
  ⟨fun _ => rfl, claim_C6_amended exC6 behC6 9 (fun _ => rfl)⟩

/-- Counterexample to claim C6 as stated: both callbacks 1 and 2 are
active at the start of the tick, callback 1 throws, dispatch aborts with
the error and callback 2 — a sibling subscriber in the same tick — is
never notified. -/
theorem claim_C6_counterexample :
    lookupI exC6.subs (some 1000) = some 0
  ∧ (1 : Nat) ∈ exC6.heap 0 ∧ (2 : Nat) ∈ exC6.heap 0
  ∧ (tick behC6 9 exC6).2.2 = true
  ∧ (tick behC6 9 exC6).2.1 = [(some 1000, 1, 9)]
  ∧ ((some 1000 : Iv), 2, 9) ∉ (tick behC6 9 exC6).2.1 := by
  decide

/-- Claim C4, amended: schedule recomputation computes the minimum
requested interval across all bucket keys; when no finite minimum exists
it arms nothing (the state is exactly the state after the unconditional
cancel), and when a finite minimum exists it arms exactly one fresh timer
and records it as pending — but the armed delay is the placeholder
`Infinity` (`none`), not the minimum: the minimum only decides whether to
arm. -/
theorem claim_C4_amended (w : World)
    (ht : ∀ p ∈ w.liveInj ++ w.liveWin, p.1 < w.nextT) :
    (minKeyIv w.subs = none → scheduleNextTick w = engineClear w w.nextTickId)
  ∧ (∀ m, minKeyIv w.subs = some m →
      (scheduleNextTick w).nextTickId = some w.nextT
      ∧ (scheduleNextTick w).nextTickMs = some none
      ∧ engineLive (scheduleNextTick w) =
          engineLive (engineClear w w.nextTickId) ++ [(w.nextT, none)]
      ∧ w.nextT ∉ (engineLive w).map Prod.fst) := by
  constructor
  · intro h
    rw [scheduleNextTick]
    have hcond : minKeyIv (engineClear w w.nextTickId).subs = none := by
      rw [engineClear_subs]; exact h
    rw [if_pos hcond]
  · intro m hm
    have hcond : ¬ minKeyIv (engineClear w w.nextTickId).subs = none := by
      rw [engineClear_subs, hm]; simp
    have hsch : scheduleNextTick w =
        engineArm { engineClear w w.nextTickId with nextTickMs := some none } none := by
      rw [scheduleNextTick, if_neg hcond]
    refine ⟨?h1, ?h2, ?h3, ?h4⟩
    · rw [hsch, engineArm_nextTickId]
      simp [engineClear_nextT]
    · rw [hsch, engineArm_nextTickMs]
    · rw [hsch, engineArm_engineLive]
      have h1 : engineLive { engineClear w w.nextTickId with nextTickMs := some none } =
          engineLive (engineClear w w.nextTickId) := rfl
      have h2 : { engineClear w w.nextTickId with nextTickMs := some none }.nextT = w.nextT := by
        simp [engineClear_nextT]
      rw [h1, h2]
    · intro hmem
      rcases List.mem_map.mp hmem with ⟨p, hp, hfst⟩
      have := ht p (mem_engineLive_mem_append hp)
      rw [hfst] at this
      exact Nat.lt_irrefl _ this

/-- Witness for the amended claim C4 on a concrete engine with one
1000 ms bucket and one unbounded bucket. -/
theorem claim_C4_witness :
    (∀ p ∈ exC1.liveInj ++ exC1.liveWin, p.1 < exC1.nextT)
  ∧ ((minKeyIv exC1.subs = none →
        scheduleNextTick exC1 = engineClear exC1 exC1.nextTickId)
  ∧ (∀ m, minKeyIv exC1.subs = some m →
      (scheduleNextTick exC1).nextTickId = some exC1.nextT
      ∧ (scheduleNextTick exC1).nextTickMs = some none
      ∧ engineLive (scheduleNextTick exC1) =
          engineLive (engineClear exC1 exC1.nextTickId) ++ [(exC1.nextT, none)]
      ∧ exC1.nextT ∉ (engineLive exC1).map Prod.fst)) :=
  ⟨by decide, claim_C4_amended exC1 (by decide)⟩

/-- Counterexample to claim C4 as stated: on an engine whose only bucket
requests 1000 ms, the minimum is 1000 but the armed pending timer's delay
is `Infinity` (`none`), not 1000. -/
theorem claim_C4_counterexample :
    minKeyIv exA.1.subs = some 1000
  ∧ exA.1.nextTickId = some 0
  ∧ exA.1.liveWin = [(0, none)]
  ∧ ((0 : Nat), (some 1000 : Iv)) ∉ exA.1.liveWin := by
  decide

/-- Claim C8: when callbacks unsubscribe themselves or others during a
tick (and none throws), dispatch completes without error; every
registration still present at the end of the tick — i.e. every subscriber
unaffected by the removals — was notified exactly once during the tick;
and a registration removed during the tick (no longer present
afterwards) is not notified on the next tick. -/
theorem claim_C8 (w : World) (beh : Beh) (now : Nat)
    (hthr : ∀ x, beh.throws x = false)
    (hkeys : KeysNodup w.subs)
    (hnodup : ∀ p ∈ w.subs, (w.heap p.2).Nodup) :
    (tick beh now w).2.2 = false
  ∧ (∀ i b c, lookupI (tick beh now w).1.subs i = some b →
      c ∈ (tick beh now w).1.heap b →
      (tick beh now w).2.1.count (i, c, now) = 1)
  ∧ (∀ i c, ¬ registered (tick beh now w).1 i c →
      ∀ now2, (tick passiveBeh now2 (tick beh now w).1).2.1.count (i, c, now2) = 0) := by
  refine ⟨?thr, ?once, ?gone⟩
  · rw [tick]
    exact dk_nothrow hthr _ _
  · intro i b c hlook hfin
    rw [tick] at hlook hfin ⊢
    apply Nat.le_antisymm
    · exact dk_count c w.subs { w with latest := now } hkeys hnodup
    · apply List.count_pos_iff.mpr
      have hback : lookupI w.subs i = some b :=
        lookupI_of_sublist
          (dispatchKeys_shrinks beh now w.subs { w with latest := now }).1 hkeys hlook
      exact dk_complete hthr w.subs { w with latest := now } hkeys
        (mem_of_lookupI hback) hlook hfin
  · intro i c hreg now2
    rw [tick]
    apply count_eq_zero_of_tag
    intro hmem
    rcases dk_sound_nounsub (fun _ => rfl) (tick beh now w).1.subs
      { (tick beh now w).1 with latest := now2 } _ hmem with ⟨b2, hb2, hc2, _⟩
    exact hreg ⟨b2, hb2, hc2⟩

/-- Witness for claim C8: subscribers X = 1 (1000 ms), Y = 2 (5000 ms)
and Z = 3 (1000 ms), where Z unsubscribes itself from inside its own
delivery callback. -/
theorem claim_C8_witness :
    ((∀ x, behC8.throws x = false)
      ∧ KeysNodup exC8.subs ∧ ∀ p ∈ exC8.subs, (exC8.heap p.2).Nodup)
  ∧ ((tick behC8 7 exC8).2.2 = false
  ∧ (∀ i b c, lookupI (tick behC8 7 exC8).1.subs i = some b →
      c ∈ (tick behC8 7 exC8).1.heap b →
      (tick behC8 7 exC8).2.1.count (i, c, 7) = 1)
  ∧ (∀ i c, ¬ registered (tick behC8 7 exC8).1 i c →
      ∀ now2, (tick passiveBeh now2 (tick behC8 7 exC8).1).2.1.count (i, c, now2) = 0)) :=
  ⟨⟨fun _ => rfl, by decide, by decide⟩,
   claim_C8 exC8 behC8 7 (fun _ => rfl) (by decide) (by decide)⟩

/-- Counterexample to claim C2 as stated: run subscribe(1000 ms, cb 1)
= u1; u1(); subscribe(1000 ms, cb 2) = u2; u1() again.  The stale second
invocation of u1 finds its captured Set empty and deletes the map entry
for 1000 ms — the entry of the fresh bucket holding live callback 2 (u2
was never invoked).  The key set is now empty although interval 1000 has
a live subscriber, which sits orphaned in its Set. -/
theorem claim_C2_counterexample :
    exA.2 = ⟨0, some 1000, 1⟩
  ∧ exC.2 = ⟨1, some 1000, 2⟩
  ∧ exC.1.subs = [(some 1000, 1)]
  ∧ exC.1.heap 1 = [2]
  ∧ exD.subs = []
  ∧ exD.heap 1 = [2] := by
  decide

/-! ## Helper lemmas for the subscription invariant -/

theorem addUnique_ne_nil (l : List Nat) (c : Nat) : addUnique l c ≠ [] := by
  by_cases h : c ∈ l
  · rw [addUnique, if_pos h]
    exact List.ne_nil_of_mem h
  · rw [addUnique, if_neg h]
    simp

theorem lookupI_append_some {l : List (Iv × Nat)} (l2 : List (Iv × Nat))
    {i : Iv} {b : Nat} (h : lookupI l i = some b) :
    lookupI (l ++ l2) i = some b := by
  induction l with
  | nil => simp [lookupI] at h
  | cons p rest ih =>
      by_cases hp : p.1 = i
      · rw [lookupI, if_pos hp] at h
        rw [List.cons_append, lookupI, if_pos hp]
        exact h
      · rw [lookupI, if_neg hp] at h
        rw [List.cons_append, lookupI, if_neg hp]
        exact ih h

theorem lookupI_append_new {l : List (Iv × Nat)} {i : Iv} (b : Nat)
    (h : lookupI l i = none) :
    lookupI (l ++ [(i, b)]) i = some b := by
  induction l with
  | nil => simp [lookupI]
  | cons p rest ih =>
      by_cases hp : p.1 = i
      · rw [lookupI, if_pos hp] at h
        exact absurd h (by simp)
      · rw [lookupI, if_neg hp] at h
        rw [List.cons_append, lookupI, if_neg hp]
        exact ih h

theorem lookupI_append_old {l : List (Iv × Nat)} {i j : Iv} (b : Nat)
    (h : j ≠ i) :
    lookupI (l ++ [(i, b)]) j = lookupI l j := by
  induction l with
  | nil =>
      have hij : ¬ i = j := fun he => h he.symm
      simp [lookupI, hij]
  | cons p rest ih =>
      by_cases hp : p.1 = j
      · rw [List.cons_append, lookupI, if_pos hp, lookupI, if_pos hp]
      · rw [List.cons_append, lookupI, if_neg hp, lookupI, if_neg hp]
        exact ih

theorem unsubscribeTok_nextB (t : Token) (w : World) :
    (unsubscribeTok t w).nextB = w.nextB := by
  rw [unsubscribeTok]
  by_cases h : (w.heap t.b).erase t.c = []
  · simp [h, scheduleNextTick_nextB, setHeap]
  · simp [h, setHeap]

theorem eq_singleton_of_erase_nil {l : List Nat} {c : Nat}
    (hc : c ∈ l) (h : l.erase c = []) : l = [c] := by
  cases l with
  | nil => simp at hc
  | cons x xs =>
      by_cases hx : x = c
      · subst hx
        rw [List.erase_cons_head] at h
        rw [h]
      · rw [List.erase_cons_tail] at h
        · simp at h
        · simp [hx]

theorem key_eq_of_mem {l : List (Iv × Nat)} (h1 : KeysNodup l)
    {p : Iv × Nat} {i : Iv} {b : Nat}
    (hp : p ∈ l) (hb : lookupI l i = some b) (hpi : p.1 = i) : p.2 = b := by
  have hx := lookupI_of_mem h1 hp
  rw [hpi, hb] at hx
  exact (Option.some.inj hx).symm

theorem snd_ne_of_fst_ne {l : List (Iv × Nat)}
    (h3 : (l.map Prod.snd).Nodup) {p q : Iv × Nat}
    (hp : p ∈ l) (hq : q ∈ l) (hne : p.1 ≠ q.1) : p.2 ≠ q.2 :=
  fun he => hne (congrArg Prod.fst (List.inj_on_of_nodup_map h3 hp hq he))

/-- A safe subscribe step preserves the engine invariant. -/
theorem subscribe_inv {w : World} {g : List (Iv × Nat)} {i : Iv} {c : Nat}
    (hfresh : (i, c) ∉ g) (hinv : EngineInv w g) :
    EngineInv (subscribe i c w).1 (g ++ [(i, c)]) := by
  obtain ⟨h1, h2, h3, h4, h5, h6, h7, h8⟩ := hinv
  have h8' : (g ++ [(i, c)]).Nodup :=
    List.Nodup.append h8 (List.nodup_singleton _)
      (by simpa [List.disjoint_singleton] using hfresh)
  cases hl : lookupI w.subs i with
  | some b =>
      have hmem_ib : (i, b) ∈ w.subs := mem_of_lookupI hl
      have hsubs : (subscribe i c w).1.subs = w.subs := by
        rw [subscribe_existing i c w hl]
        rfl
      have hnextB : (subscribe i c w).1.nextB = w.nextB := by
        rw [subscribe_existing i c w hl]
        rfl
      have hheap : ∀ x, (subscribe i c w).1.heap x =
          if x = b then addUnique (w.heap b) c else w.heap x := by
        intro x
        rw [subscribe_existing i c w hl]
        rfl
      refine ⟨?k1, ?k2, ?k3, ?k4, ?k5, ?k6, ?k7, h8'⟩
      · rw [hsubs]; exact h1
      · intro p hp
        rw [hsubs] at hp
        rw [hnextB]
        exact h2 p hp
      · rw [hsubs]; exact h3
      · intro p hp
        rw [hsubs] at hp
        rw [hheap p.2]
        by_cases hpb : p.2 = b
        · rw [if_pos hpb]
          exact addUnique_nodup (h4 (i, b) hmem_ib) c
        · rw [if_neg hpb]
          exact h4 p hp
      · intro p hp
        rw [hsubs] at hp
        rw [hheap p.2]
        by_cases hpb : p.2 = b
        · rw [if_pos hpb]
          exact addUnique_ne_nil _ _
        · rw [if_neg hpb]
          exact h5 p hp
      · intro p hp cx
        rw [hsubs] at hp
        rw [hheap p.2, List.mem_append, List.mem_singleton]
        by_cases hpi : p.1 = i
        · have hpb : p.2 = b := key_eq_of_mem h1 hp hl hpi
          rw [if_pos hpb, mem_addUnique]
          have hiff : cx ∈ w.heap b ↔ (p.1, cx) ∈ g := by
            rw [← hpb]
            exact h6 p hp cx
          have hiff2 : cx = c ↔ (p.1, cx) = (i, c) := by
            simp [Prod.ext_iff, hpi]
          rw [hiff, hiff2]
        · have hpb : p.2 ≠ b := snd_ne_of_fst_ne h3 hp hmem_ib hpi
          rw [if_neg hpb, h6 p hp cx]
          have hne : ¬ (p.1, cx) = (i, c) := fun heq => hpi (congrArg Prod.fst heq)
          simp [hne]
      · intro ix cx hm
        rw [hsubs]
        rcases List.mem_append.mp hm with hin | hin
        · exact h7 ix cx hin
        · have heq := List.mem_singleton.mp hin
          have hii : ix = i := congrArg Prod.fst heq
          refine ⟨b, ?look0⟩
          rw [hii]
          exact hl
  | none =>
      have habs : ∀ p ∈ w.subs, p.1 ≠ i := (lookupI_eq_none _ _).mp hl
      have hsubs := subscribe_new_subs i c w hl
      have hheap := subscribe_new_heap i c w hl
      have hnextB := subscribe_new_nextB i c w hl
      have hgnone : ∀ cx, (i, cx) ∉ g := by
        intro cx hcg
        rcases h7 i cx hcg with ⟨bx, hbx⟩
        rw [hl] at hbx
        simp at hbx
      show EngineInv (subscribe i c w).1 (g ++ [(i, c)])
      refine ⟨?k1b, ?k2b, ?k3b, ?k4b, ?k5b, ?k6b, ?k7b, h8'⟩
      · rw [hsubs]
        show (List.map Prod.fst (w.subs ++ [(i, w.nextB)])).Nodup
        rw [List.map_append]
        refine List.Nodup.append h1 (by simp) ?dj
        rw [show List.map Prod.fst [(i, w.nextB)] = [i] from rfl, List.disjoint_singleton]
        intro hmem
        rcases List.mem_map.mp hmem with ⟨p, hp, hpi⟩
        exact habs p hp hpi
      · intro p hp
        rw [hsubs] at hp
        rw [hnextB]
        rcases List.mem_append.mp hp with hin | hin
        · exact Nat.lt_succ_of_lt (h2 p hin)
        · have heq := List.mem_singleton.mp hin
          rw [congrArg Prod.snd heq]
          exact Nat.lt_succ_self _
      · rw [hsubs, List.map_append]
        refine List.Nodup.append h3 (by simp) ?dj2
        rw [show List.map Prod.snd [(i, w.nextB)] = [w.nextB] from rfl, List.disjoint_singleton]
        intro hmem
        rcases List.mem_map.mp hmem with ⟨p, hp, hps⟩
        have := h2 p hp
        rw [hps] at this
        exact Nat.lt_irrefl _ this
      · intro p hp
        rw [hsubs] at hp
        rw [hheap p.2]
        rcases List.mem_append.mp hp with hin | hin
        · have hpb : ¬ p.2 = w.nextB := Nat.ne_of_lt (h2 p hin)
          rw [if_neg hpb]
          exact h4 p hin
        · have heq := List.mem_singleton.mp hin
          rw [if_pos (congrArg Prod.snd heq)]
          simp
      · intro p hp
        rw [hsubs] at hp
        rw [hheap p.2]
        rcases List.mem_append.mp hp with hin | hin
        · have hpb : ¬ p.2 = w.nextB := Nat.ne_of_lt (h2 p hin)
          rw [if_neg hpb]
          exact h5 p hin
        · have heq := List.mem_singleton.mp hin
          rw [if_pos (congrArg Prod.snd heq)]
          simp
      · intro p hp cx
        rw [hsubs] at hp
        rw [hheap p.2, List.mem_append, List.mem_singleton]
        rcases List.mem_append.mp hp with hin | hin
        · have hpb : ¬ p.2 = w.nextB := Nat.ne_of_lt (h2 p hin)
          rw [if_neg hpb, h6 p hin cx]
          have hne : ¬ (p.1, cx) = (i, c) :=
            fun heq => habs p hin (congrArg Prod.fst heq)
          simp [hne]
        · have heq := List.mem_singleton.mp hin
          have hp1 : p.1 = i := congrArg Prod.fst heq
          rw [if_pos (congrArg Prod.snd heq), List.mem_singleton, hp1]
          constructor
          · intro hcc
            exact Or.inr (by rw [hcc])
          · rintro (hin2 | heq2)
            · exact absurd hin2 (hgnone cx)
            · exact congrArg Prod.snd heq2
      · intro ix cx hm
        rw [hsubs]
        rcases List.mem_append.mp hm with hin | hin
        · rcases h7 ix cx hin with ⟨bx, hbx⟩
          exact ⟨bx, lookupI_append_some _ hbx⟩
        · have heq := List.mem_singleton.mp hin
          have hii : ix = i := congrArg Prod.fst heq
          refine ⟨w.nextB, ?look⟩
          rw [hii]
          exact lookupI_append_new _ hl

/-- A safe unsubscribe step (the token is still current) preserves the
engine invariant. -/
theorem unsubscribe_inv {w : World} {g : List (Iv × Nat)} {b : Nat}
    {i : Iv} {c : Nat}
    (hb : lookupI w.subs i = some b) (hc : c ∈ w.heap b)
    (hinv : EngineInv w g) :
    EngineInv (unsubscribeTok ⟨b, i, c⟩ w) (g.erase (i, c)) := by
  obtain ⟨h1, h2, h3, h4, h5, h6, h7, h8⟩ := hinv
  have hmem_ib : (i, b) ∈ w.subs := mem_of_lookupI hb
  have hbnodup : (w.heap b).Nodup := h4 (i, b) hmem_ib
  have hsubs := unsubscribeTok_subs ⟨b, i, c⟩ w
  have hheap := unsubscribeTok_heap ⟨b, i, c⟩ w
  have hnextB := unsubscribeTok_nextB ⟨b, i, c⟩ w
  have h8' : (g.erase (i, c)).Nodup := h8.erase _
  have hg_iff : ∀ q, q ∈ g.erase (i, c) ↔ q ≠ (i, c) ∧ q ∈ g :=
    fun q => h8.mem_erase_iff
  by_cases he : (w.heap b).erase c = []
  · have hsingle : w.heap b = [c] := eq_singleton_of_erase_nil hc he
    have hlive_i : ∀ cx, (i, cx) ∈ g ↔ cx = c := by
      intro cx
      rw [← h6 (i, b) hmem_ib cx]
      show cx ∈ w.heap b ↔ cx = c
      rw [hsingle, List.mem_singleton]
    have hsubs' : (unsubscribeTok ⟨b, i, c⟩ w).subs = removeKey w.subs i := by
      rw [hsubs, if_pos he]
    have hsl : List.Sublist (removeKey w.subs i) w.subs := removeKey_sublist _ _
    show EngineInv (unsubscribeTok ⟨b, i, c⟩ w) (g.erase (i, c))
    refine ⟨?u1, ?u2, ?u3, ?u4, ?u5, ?u6, ?u7, h8'⟩
    · rw [hsubs']
      exact keysNodup_sublist hsl h1
    · intro p hp
      rw [hsubs'] at hp
      rw [hnextB]
      exact h2 p (hsl.mem hp)
    · rw [hsubs']
      exact List.Nodup.sublist (hsl.map Prod.snd) h3
    · intro p hp
      rw [hsubs'] at hp
      rw [hheap p.2]
      by_cases hpb : p.2 = b
      · rw [if_pos hpb]
        exact hbnodup.erase c
      · rw [if_neg hpb]
        exact h4 p (hsl.mem hp)
    · intro p hp
      rw [hsubs'] at hp
      have hpmem := hsl.mem hp
      have hpi : p.1 ≠ i := by
        have := List.of_mem_filter hp
        simpa using this
      have hpb : p.2 ≠ b := snd_ne_of_fst_ne h3 hpmem hmem_ib hpi
      rw [hheap p.2, if_neg hpb]
      exact h5 p hpmem
    · intro p hp cx
      rw [hsubs'] at hp
      have hpmem := hsl.mem hp
      have hpi : p.1 ≠ i := by
        have := List.of_mem_filter hp
        simpa using this
      have hpb : p.2 ≠ b := snd_ne_of_fst_ne h3 hpmem hmem_ib hpi
      rw [hheap p.2, if_neg hpb, hg_iff (p.1, cx), h6 p hpmem cx]
      have hne : (p.1, cx) ≠ (i, c) := fun heq => hpi (congrArg Prod.fst heq)
      simp [hne]
    · intro ix cx hm
      rw [hg_iff] at hm
      obtain ⟨hne, hin⟩ := hm
      by_cases hii : ix = i
      · exfalso
        rw [hii] at hin
        have := (hlive_i cx).mp hin
        rw [hii, this] at hne
        exact hne rfl
      · rcases h7 ix cx hin with ⟨bx, hbx⟩
        rw [hsubs']
        refine ⟨bx, ?lk⟩
        rw [lookupI_removeKey_ne _ hii]
        exact hbx
  · have hsubs' : (unsubscribeTok ⟨b, i, c⟩ w).subs = w.subs := by
      rw [hsubs, if_neg he]
    show EngineInv (unsubscribeTok ⟨b, i, c⟩ w) (g.erase (i, c))
    refine ⟨?v1, ?v2, ?v3, ?v4, ?v5, ?v6, ?v7, h8'⟩
    · rw [hsubs']
      exact h1
    · intro p hp
      rw [hsubs'] at hp
      rw [hnextB]
      exact h2 p hp
    · rw [hsubs']
      exact h3
    · intro p hp
      rw [hsubs'] at hp
      rw [hheap p.2]
      by_cases hpb : p.2 = b
      · rw [if_pos hpb]
        exact hbnodup.erase c
      · rw [if_neg hpb]
        exact h4 p hp
    · intro p hp
      rw [hsubs'] at hp
      rw [hheap p.2]
      by_cases hpb : p.2 = b
      · rw [if_pos hpb]
        exact he
      · rw [if_neg hpb]
        exact h5 p hp
    · intro p hp cx
      rw [hsubs'] at hp
      rw [hheap p.2, hg_iff (p.1, cx)]
      by_cases hpi : p.1 = i
      · have hpb : p.2 = b := key_eq_of_mem h1 hp hb hpi
        rw [if_pos hpb, hbnodup.mem_erase_iff]
        have hiff : cx ∈ w.heap b ↔ (p.1, cx) ∈ g := by
          rw [← hpb]
          exact h6 p hp cx
        rw [hiff]
        show (¬ cx = c) ∧ (p.1, cx) ∈ g ↔ (¬ (p.1, cx) = (i, c)) ∧ (p.1, cx) ∈ g
        have hiff2 : ¬ cx = c ↔ ¬ (p.1, cx) = (i, c) := by
          simp [Prod.ext_iff, hpi]
        rw [hiff2]
      · have hpb : p.2 ≠ b := snd_ne_of_fst_ne h3 hp hmem_ib hpi
        rw [if_neg hpb, h6 p hp cx]
        have hne : (p.1, cx) ≠ (i, c) := fun heq => hpi (congrArg Prod.fst heq)
        simp [hne]
    · intro ix cx hm
      rw [hg_iff] at hm
      rw [hsubs']
      exact h7 ix cx hm.2

/-- Every safe step preserves the engine invariant. -/
theorem safeStep_inv {cf cf2 : Conf} (h : SafeStep cf cf2)
    (hinv : EngineInv cf.1 cf.2) : EngineInv cf2.1 cf2.2 := by
  cases h with
  | sub w g i c hfresh => exact subscribe_inv hfresh hinv
  | uns w g b i c hb hc => exact unsubscribe_inv hb hc hinv

/-- Every reachable configuration satisfies the engine invariant. -/
theorem reach_inv {v : Nat} {inj : Bool} {cf : Conf} (h : Reach v inj cf) :
    EngineInv cf.1 cf.2 := by
  unfold Reach at h
  induction h with
  | refl =>
      exact ⟨List.nodup_nil,
        fun p hp => absurd hp (List.not_mem_nil p),
        List.nodup_nil,
        fun p hp => absurd hp (List.not_mem_nil p),
        fun p hp => absurd hp (List.not_mem_nil p),
        fun p hp => absurd hp (List.not_mem_nil p),
        fun ix cx hm => absurd hm (List.not_mem_nil _),
        List.nodup_nil⟩
  | tail hpath hstep ih =>
      exact safeStep_inv hstep ih

/-- Claim C2, amended: for every safe sequence of subscribe/unsubscribe
steps — each callback subscribed at an interval only while not already
live there, and each unsubscribe closure invoked only while its
subscription is still current (so in particular at most once, and never
after its bucket was destroyed and replaced) — the set of keys of the
engine's bucket map equals exactly the set of intervals with at least one
live registration. -/
theorem claim_C2_amended (v : Nat) (inj : Bool) (cf : Conf)
    (h : Reach v inj cf) (i : Iv) :
    (∃ b, lookupI cf.1.subs i = some b) ↔ (∃ c, (i, c) ∈ cf.2) := by
  obtain ⟨h1, h2, h3, h4, h5, h6, h7, h8⟩ := reach_inv h
  constructor
  · rintro ⟨b, hb⟩
    have hmem := mem_of_lookupI hb
    have hne := h5 (i, b) hmem
    rcases List.exists_mem_of_ne_nil _ hne with ⟨c, hc⟩
    exact ⟨c, (h6 (i, b) hmem c).mp hc⟩
  · rintro ⟨c, hcg⟩
    exact h7 i c hcg

/-- Witness for the amended claim C2: subscribe callback 1 at 1000 ms,
then invoke its (still current) unsubscribe closure once; afterwards the
bucket map has no key and no registration is live. -/
theorem claim_C2_witness :
    (∃ b, lookupI exB.subs (some 1000) = some b) ↔
      (∃ c, ((some 1000 : Iv), c) ∈ ([] ++ [((some 1000 : Iv), 1)]).erase (some 1000, 1)) := by
  have s1 : SafeStep (construct 0 false, [])
      ((subscribe (some 1000) 1 (construct 0 false)).1, [] ++ [((some 1000 : Iv), 1)]) :=
    SafeStep.sub (construct 0 false) [] (some 1000) 1 (by decide)
  have s2 : SafeStep
      ((subscribe (some 1000) 1 (construct 0 false)).1, [] ++ [((some 1000 : Iv), 1)])
      (exB, ([] ++ [((some 1000 : Iv), 1)]).erase (some 1000, 1)) :=
    SafeStep.uns exA.1 ([] ++ [((some 1000 : Iv), 1)]) 0 (some 1000) 1
      (by decide) (by decide)
  exact claim_C2_amended 0 false
    (exB, ([] ++ [((some 1000 : Iv), 1)]).erase (some 1000, 1))
    (Relation.ReflTransGen.tail (Relation.ReflTransGen.single s1) s2)
    (some 1000)

/-! ## Observable no-op lemmas for repeated unsubscription (claim C3) -/

theorem scheduleNextTick_idle (w : World) (h : minKeyIv w.subs = none) :
    scheduleNextTick w = engineClear w w.nextTickId := by
  rw [scheduleNextTick]
  have hcond : minKeyIv (engineClear w w.nextTickId).subs = none := by
    rw [engineClear_subs]
    exact h
  rw [if_pos hcond]

theorem scheduleNextTick_arm (w : World) {m : Nat}
    (h : minKeyIv w.subs = some m) :
    scheduleNextTick w =
      engineArm { engineClear w w.nextTickId with nextTickMs := some none } none := by
  rw [scheduleNextTick]
  have hcond : ¬ minKeyIv (engineClear w w.nextTickId).subs = none := by
    rw [engineClear_subs, h]
    simp
  rw [if_neg hcond]

/-- When the pending-timer bookkeeping is coherent, recomputing the
schedule does not change the observable state: the armed delays before
and after agree (the old timer is cancelled and an identical one armed,
or there was and remains none). -/
theorem scheduleNextTick_obs (w : World) (h3 : schedInv w) :
    obs (scheduleNextTick w) = obs w := by
  cases hmin : minKeyIv w.subs with
  | none =>
      have hlive : engineLive w = [] := by
        have h := h3
        rw [schedInv, hmin] at h
        exact h
      rw [scheduleNextTick_idle w hmin]
      cases hid : w.nextTickId with
      | none => rfl
      | some t0 =>
          simp only [obs, Prod.mk.injEq]
          refine ⟨?bv, ?el, ?ol⟩
          · rw [engineClear_subs, engineClear_heap]
          · rw [engineClear_engineLive_some, hlive]
            rfl
          · rw [engineClear_otherLive]
  | some m =>
      have h := h3
      rw [schedInv, hmin] at h
      obtain ⟨t0, hid, hlive⟩ := h
      rw [scheduleNextTick_arm w hmin]
      simp only [obs, Prod.mk.injEq]
      have hinner : engineLive { engineClear w w.nextTickId with nextTickMs := some none } =
          engineLive (engineClear w w.nextTickId) := rfl
      have hother : otherLive { engineClear w w.nextTickId with nextTickMs := some none } =
          otherLive (engineClear w w.nextTickId) := rfl
      refine ⟨?bv2, ?el2, ?ol2⟩
      · simp only [engineArm_subs, engineArm_heap, engineClear_subs, engineClear_heap]
      · rw [engineArm_engineLive, hinner, hid, engineClear_engineLive_some, hlive]
        simp
      · rw [engineArm_otherLive, hother, engineClear_otherLive]

/-- Claim C3, amended: re-invoking an unsubscribe closure never raises
and is a no-op on the observable state (bucket contents and armed
delays), provided the callback has not meanwhile been re-subscribed into
the captured Set, the interval's map entry has not been re-created after
the Set was emptied, and the pending-timer bookkeeping is coherent — all
of which hold immediately after the first invocation. -/
theorem claim_C3_amended (w : World) (t : Token)
    (h1 : t.c ∉ w.heap t.b)
    (h2 : w.heap t.b = [] → lookupI w.subs t.i = none)
    (h3 : schedInv w) :
    obs (unsubscribeTok t w) = obs w := by
  by_cases hb : w.heap t.b = []
  · have hl : (w.heap t.b).erase t.c = [] := by rw [hb]; rfl
    have hrk : removeKey w.subs t.i = w.subs := removeKey_eq_self (h2 hb)
    have hback : unsubscribeTok t w =
        scheduleNextTick { setHeap w t.b [] with subs := removeKey w.subs t.i } := by
      simp only [unsubscribeTok, setHeap, hl, if_pos]
    have hh : (fun x => if x = t.b then ([] : List Nat) else w.heap x) = w.heap := by
      funext x
      by_cases hx : x = t.b
      · rw [if_pos hx, hx, hb]
      · rw [if_neg hx]
    have hW2 : ({ setHeap w t.b [] with subs := removeKey w.subs t.i } : World) = w := by
      simp only [setHeap]
      rw [hrk, hh]
    rw [hback, hW2]
    exact scheduleNextTick_obs w h3
  · have hl : (w.heap t.b).erase t.c = w.heap t.b := List.erase_of_not_mem h1
    have hback : unsubscribeTok t w = setHeap w t.b (w.heap t.b) := by
      simp only [unsubscribeTok, hl, if_neg hb]
    have hh : (fun x => if x = t.b then w.heap t.b else w.heap x) = w.heap := by
      funext x
      by_cases hx : x = t.b
      · rw [if_pos hx, hx]
      · rw [if_neg hx]
    rw [hback]
    show obs { w with heap := fun x => if x = t.b then w.heap t.b else w.heap x } = obs w
    rw [hh]

/-- Witness for the amended claim C3: callbacks 1 and 2 share the
1000 ms bucket; callback 1's closure has been invoked once (`exC3`), and
invoking it a second time is an observable no-op. -/
theorem claim_C3_witness :
    ((1 : Nat) ∉ exC3.heap 0
      ∧ (exC3.heap 0 = [] → lookupI exC3.subs (some 1000) = none)
      ∧ schedInv exC3)
  ∧ obs (unsubscribeTok ⟨0, some 1000, 1⟩ exC3) = obs exC3 :=
  ⟨⟨by decide, by decide, ⟨0, by decide, by decide⟩⟩,
   claim_C3_amended exC3 ⟨0, some 1000, 1⟩ (by decide) (by decide)
     ⟨0, by decide, by decide⟩⟩

/-- Counterexample to claim C3 as stated: with a new subscription at the
same interval interleaved between the two invocations, the second
invocation of the unsubscribe closure destroys the live bucket (and
cancels the pending timer): the observable state differs from the state
after a single invocation. -/
theorem claim_C3_counterexample :
    exA.2 = ⟨0, some 1000, 1⟩
  ∧ obs exC.1 = ([(some 1000, [2])], [none], [])
  ∧ obs exD = ([], [], [])
  ∧ obs exD ≠ obs exC.1 := by
  decide
